import Mathlib

/-!
Verification development for the CSV data-cleaning and analysis tool.

The repository ships a React frontend (src/frontend) together with
documentation describing the backend (backend/app/services/cleaner.py and
backend/app/services/analyzer.py).  The backend service code itself is not
part of the visible sources, so the Table data model, the analysis engine,
the six-stage cleaning pipeline and the dataset registry are modelled here
from the specification, faithful to its words.  The file-upload guard is
embedded directly from src/frontend/src/components/FileUpload.js.
-/

namespace CsvSpec

/-- Modelled from the spec: a cell value of a Table.  The backend keeps
numeric, boolean and text values; numbers are modelled as rationals (the
idealized arithmetic of the spec's formulas). -/
inductive Value where
  | num (q : ℚ)
  | str (s : String)
  | boolV (b : Bool)
deriving DecidableEq, Repr

/-- A cell is either a present value or null (missing). -/
abbrev Cell := Option Value

/-- Modelled from the spec: the inferred kind of a column. -/
inductive Kind where
  | numeric
  | boolean
  | text
deriving DecidableEq, Repr

/-- Modelled from the spec: a column header, carrying the column name and
its inferred kind. -/
structure Header where
  name : String
  kind : Kind
deriving DecidableEq, Repr

/-- Modelled from the spec: an immutable in-memory Table.  The spec's data
model is an ordered sequence of uniquely-named columns all sharing one
row count; the shallow embedding stores the same data row-major, with one
header per column and one list of cells per row. -/
structure Table where
  headers : List Header
  rows : List (List Cell)
deriving DecidableEq, Repr

/-- Whether a cell is compatible with a column kind (null fits any kind). -/
def cellKindOk (k : Kind) (c : Cell) : Bool :=
  match c, k with
  | Option.none, _ => true
  | some (Value.num _), Kind.numeric => true
  | some (Value.str _), Kind.text => true
  | some (Value.boolV _), Kind.boolean => true
  | _, _ => false

/-- Well-formedness of a Table: every row has one cell per column, column
names are unique, and every cell matches its column's kind. -/
def Wellformed (t : Table) : Prop :=
  (∀ r ∈ t.rows, r.length = t.headers.length) ∧
  (t.headers.map Header.name).Nodup ∧
  (∀ r ∈ t.rows, ∀ p ∈ t.headers.zip r, cellKindOk p.1.kind p.2 = true)

instance (t : Table) : Decidable (Wellformed t) := by
  unfold Wellformed; infer_instance

/-- The cells of column `j`, in row order. -/
def colCells (t : Table) (j : Nat) : List Cell :=
  t.rows.map (fun r => r.getD j Option.none)

/-- The numeric content of a cell, if any. -/
def numOf : Cell → Option ℚ
  | some (Value.num x) => some x
  | _ => Option.none

/-- The non-null numeric values of column `j`, in row order. -/
def colVals (t : Table) (j : Nat) : List ℚ :=
  (colCells t j).filterMap numOf

/-- First-occurrence deduplication: keep the first occurrence of each
distinct element, in order; `seen` accumulates the elements kept so far. -/
def dedupFirstAux {α : Type} [DecidableEq α] (seen : List α) : List α → List α
  | [] => []
  | x :: xs =>
    if x ∈ seen then dedupFirstAux seen xs
    else x :: dedupFirstAux (x :: seen) xs

/-- Modelled from the spec: keep the first occurrence of each distinct
element of a list, in original order, and drop the rest. -/
def dedupFirst {α : Type} [DecidableEq α] (l : List α) : List α :=
  dedupFirstAux [] l

/-- Modelled from the spec: number of duplicate rows, rows minus the count
of first occurrences (two rows are duplicates iff every column value
compares equal, nulls included). -/
def totalDuplicates (t : Table) : Nat :=
  t.rows.length - (dedupFirst t.rows).length

/-- Modelled from the spec: the remove-duplicates stage keeps the first
occurrence of each distinct row in original row order. -/
def removeDuplicatesF (t : Table) : Table :=
  { headers := t.headers, rows := dedupFirst t.rows }

/-- Apply a per-column cell transformation: `ps` holds one parameter per
column (computed once from the input table), `g` rewrites each cell from
its own column's parameter.  Each stage of the pipeline that acts
column-wise is an instance of this scheme. -/
def mapCols {P : Type} (ps : List P) (g : P → Cell → Cell) (t : Table) : Table :=
  { headers := t.headers, rows := t.rows.map (fun r => List.zipWith g ps r) }

/-- Minimum of a list of rationals (0 for the empty list). -/
def listMin : List ℚ → ℚ
  | [] => 0
  | x :: xs => xs.foldl min x

/-- Maximum of a list of rationals (0 for the empty list). -/
def listMax : List ℚ → ℚ
  | [] => 0
  | x :: xs => xs.foldl max x

/-- Mean of a list of rationals (0 for the empty list). -/
def meanQ (l : List ℚ) : ℚ := l.sum / l.length

/-- Population variance of a list of rationals (0 for the empty list). -/
def varQ (l : List ℚ) : ℚ := ((l.map (fun x => (x - meanQ l) ^ 2)).sum) / l.length

/-- Modelled from the spec: linear-interpolation quantile of an already
sorted list: position `q * (n - 1)`, interpolating between the two
adjacent order statistics. -/
def quantileLI (s : List ℚ) (q : ℚ) : ℚ :=
  match s with
  | [] => 0
  | _ :: _ =>
    let pos : ℚ := q * ((s.length : ℚ) - 1)
    let k : Nat := (Int.toNat ⌊pos⌋)
    let a := s.getD k 0
    let b := s.getD (k + 1) a
    a + (pos - (k : ℚ)) * (b - a)

/-- The non-null numeric values of column `j`, sorted ascending. -/
def sortedVals (t : Table) (j : Nat) : List ℚ :=
  List.insertionSort (fun a b : ℚ => a ≤ b) (colVals t j)

/-- Modelled from the spec: the six recognized fill-missing strategies
(absence of a strategy is represented by `Option.none`, matching the
frontend's `null`). -/
inductive FillMethod where
  | mean
  | median
  | forward_fill
  | empty_string
  | drop
deriving DecidableEq, Repr

/-- Modelled from the spec: the two numeric scaling methods. -/
inductive StdMethod where
  | zscore
  | minmax
deriving DecidableEq, Repr

/-- Modelled from the spec: the CleaningOptions configuration record. -/
structure CleaningOptions where
  columns_to_drop : List String
  fill_missing : Option FillMethod
  clean_strings : Bool
  standardize_data : Option StdMethod
  remove_duplicates : Bool
  remove_outliers : Bool
deriving DecidableEq, Repr

/-- Modelled from the spec: stage 1 removes every column whose name is in
`columns_to_drop`; unknown names are ignored. -/
def dropColsF (names : List String) (t : Table) : Table :=
  { headers := t.headers.filter (fun h => !names.contains h.name),
    rows := t.rows.map (fun r =>
      ((t.headers.zip r).filter (fun p => !names.contains p.1.name)).map (fun p => p.2)) }

/-- Fill a null cell from the column's fill parameter; present values are
kept as they are.  A parameter of `Option.none` means the column has no
fill value and its nulls remain. -/
def fillCell (p : Cell) (c : Cell) : Cell :=
  match c with
  | some v => some v
  | Option.none => p

/-- Kind of column `j`, when it exists. -/
def kindAt (t : Table) (j : Nat) : Option Kind :=
  (t.headers.get? j).map Header.kind

/-- Modelled from the spec: per-column fill value for the mean strategy:
numeric columns with at least one non-null value are filled with the mean
of the non-null values; other columns get no fill value. -/
def meanParam (t : Table) (j : Nat) : Cell :=
  if kindAt t j = some Kind.numeric ∧ colVals t j ≠ [] then
    some (Value.num (meanQ (colVals t j)))
  else Option.none

/-- Modelled from the spec: per-column fill value for the median strategy
(median of the non-null values of a numeric column). -/
def medianParam (t : Table) (j : Nat) : Cell :=
  if kindAt t j = some Kind.numeric ∧ colVals t j ≠ [] then
    some (Value.num (quantileLI (sortedVals t j) (1 / 2)))
  else Option.none

/-- Modelled from the spec: per-column fill value for the empty-string
strategy (text columns only). -/
def emptyStringParam (t : Table) (j : Nat) : Cell :=
  if kindAt t j = some Kind.text then some (Value.str "") else Option.none

/-- One forward-fill step on a row: a null cell takes the carried value of
its column, a present cell is kept. -/
def ffRow (last r : List Cell) : List Cell :=
  List.zipWith (fun l c => match c with | some v => some v | Option.none => l) last r

/-- Forward fill over the rows, carrying the latest filled row per column. -/
def ffAux : List Cell → List (List Cell) → List (List Cell)
  | _, [] => []
  | last, r :: rs =>
    let r2 := ffRow last r
    r2 :: ffAux r2 rs

/-- Modelled from the spec: stage 2, fill-missing, by strategy.  Mean and
median fill numeric columns, forward fill replaces a null with the nearest
preceding non-null value of its column, empty-string fills text columns,
and drop removes every row containing at least one null. -/
def fillMissingF (m : FillMethod) (t : Table) : Table :=
  match m with
  | FillMethod.mean =>
    mapCols ((List.range t.headers.length).map (meanParam t)) fillCell t
  | FillMethod.median =>
    mapCols ((List.range t.headers.length).map (medianParam t)) fillCell t
  | FillMethod.forward_fill =>
    { headers := t.headers,
      rows := ffAux (List.replicate t.headers.length Option.none) t.rows }
  | FillMethod.empty_string =>
    mapCols ((List.range t.headers.length).map (emptyStringParam t)) fillCell t
  | FillMethod.drop =>
    { headers := t.headers, rows := t.rows.filter (fun r => r.all Option.isSome) }

/-- Modelled from the spec: trim leading and trailing whitespace and
collapse every internal whitespace run to one space. -/
def normalizeWs (s : String) : String :=
  " ".intercalate ((s.split (fun c => c.isWhitespace)).filter (fun w => !w.isEmpty))

/-- Normalize the whitespace of a text cell; other cells are unchanged. -/
def cleanStringCell (p : Bool) (c : Cell) : Cell :=
  if p then
    match c with
    | some (Value.str s) => some (Value.str (normalizeWs s))
    | c2 => c2
  else c

/-- Modelled from the spec: stage 3 trims and normalizes whitespace in
text columns only; non-text columns and nulls are untouched. -/
def cleanStringsF (t : Table) : Table :=
  mapCols (t.headers.map (fun h => decide (h.kind = Kind.text))) cleanStringCell t

/-- The z-score transform, given mean, population variance and the value.
Modelled from the spec: the true transform divides by the standard
deviation, the square root of the variance, which is in general not a
rational number; the transform is therefore a parameter of the pipeline,
and no claim constrains its numeric output. -/
abbrev ZscoreFn := ℚ → ℚ → ℚ → ℚ

/-- Modelled from the spec: per-column parameter of the z-score stage; a
numeric column with positive variance is transformed, a constant column
(variance 0) is left unchanged. -/
def zscoreParam (t : Table) (j : Nat) : Option (ℚ × ℚ) :=
  if kindAt t j = some Kind.numeric ∧ 0 < varQ (colVals t j) then
    some (meanQ (colVals t j), varQ (colVals t j))
  else Option.none

/-- Apply the z-score transform to a numeric cell of a transformed column. -/
def zscoreCell (zs : ZscoreFn) (p : Option (ℚ × ℚ)) (c : Cell) : Cell :=
  match p, c with
  | some (m, v), some (Value.num x) => some (Value.num (zs m v x))
  | _, c2 => c2

/-- Modelled from the spec: per-column parameter of the min-max stage; a
numeric column with `min < max` is scaled, otherwise it is left
unchanged. -/
def minmaxParam (t : Table) (j : Nat) : Option (ℚ × ℚ) :=
  if kindAt t j = some Kind.numeric ∧ listMin (colVals t j) < listMax (colVals t j) then
    some (listMin (colVals t j), listMax (colVals t j))
  else Option.none

/-- Apply the min-max transform `(x - min) / (max - min)` to a numeric
cell of a transformed column. -/
def minmaxCell (p : Option (ℚ × ℚ)) (c : Cell) : Cell :=
  match p, c with
  | some (mn, mx), some (Value.num x) => some (Value.num ((x - mn) / (mx - mn)))
  | _, c2 => c2

/-- Modelled from the spec: stage 4, standardize or normalize every
numeric column independently; non-numeric columns are never touched. -/
def standardizeF (zs : ZscoreFn) (m : StdMethod) (t : Table) : Table :=
  match m with
  | StdMethod.zscore =>
    mapCols ((List.range t.headers.length).map (zscoreParam t)) (zscoreCell zs) t
  | StdMethod.minmax =>
    mapCols ((List.range t.headers.length).map (minmaxParam t)) minmaxCell t

/-- Whether the standardize stage has anything to do: some numeric column
is non-constant (z-score: positive variance; min-max: `min < max`). -/
def stdPre (m : StdMethod) (t : Table) : Bool :=
  match m with
  | StdMethod.zscore =>
    (List.range t.headers.length).any (fun j => (zscoreParam t j).isSome)
  | StdMethod.minmax =>
    (List.range t.headers.length).any (fun j => (minmaxParam t j).isSome)

/-- Modelled from the spec: first quartile of column `j`, by linear
interpolation over the sorted non-null values. -/
def q1Of (t : Table) (j : Nat) : ℚ := quantileLI (sortedVals t j) (1 / 4)

/-- Modelled from the spec: third quartile of column `j`. -/
def q3Of (t : Table) (j : Nat) : ℚ := quantileLI (sortedVals t j) (3 / 4)

/-- Modelled from the spec: lower outlier bound of column `j`,
`Q1 - 1.5 * IQR`. -/
def loBound (t : Table) (j : Nat) : ℚ :=
  q1Of t j - 3 / 2 * (q3Of t j - q1Of t j)

/-- Modelled from the spec: upper outlier bound of column `j`,
`Q3 + 1.5 * IQR`. -/
def hiBound (t : Table) (j : Nat) : ℚ :=
  q3Of t j + 3 / 2 * (q3Of t j - q1Of t j)

/-- Whether column `j` takes part in the outlier test: a numeric column
with at least 4 non-null values. -/
def testedCol (t : Table) (j : Nat) : Bool :=
  decide (kindAt t j = some Kind.numeric) && decide (4 ≤ (colVals t j).length)

/-- Whether a cell lies within the given bounds; a null or non-numeric
cell is never an outlier. -/
def cellInBounds (lo hi : ℚ) (c : Cell) : Bool :=
  match c with
  | some (Value.num x) => decide (lo ≤ x) && decide (x ≤ hi)
  | _ => true

/-- Whether a row survives the outlier stage: every tested column's value
for that row lies within its own bounds. -/
def rowInBounds (t : Table) (r : List Cell) : Bool :=
  (List.range t.headers.length).all (fun j =>
    !testedCol t j || cellInBounds (loBound t j) (hiBound t j) (r.getD j Option.none))

/-- Modelled from the spec: stage 6 removes every row some tested numeric
column of which holds a value outside that column's IQR bounds; the
bounds are computed once from the table the stage receives. -/
def removeOutliersF (t : Table) : Table :=
  { headers := t.headers, rows := t.rows.filter (rowInBounds t) }

/-- One stage of the pipeline: a precondition, a transformation and the
descriptive string to log when the stage executes. -/
structure StageSpec where
  pre : Table → Bool
  f : Table → Table
  msg : Table → String

/-- Run the stages in order, applying each stage whose precondition holds
on the table it receives and logging its message in execution order. -/
def runStages : List StageSpec → Table → Table × List String
  | [], t => (t, [])
  | s :: rest, t =>
    if s.pre t then
      let res := runStages rest (s.f t)
      (res.1, s.msg t :: res.2)
    else runStages rest t

/-- Count the stages whose precondition holds along the run. -/
def countStages : List StageSpec → Table → Nat
  | [], _ => 0
  | s :: rest, t =>
    if s.pre t then countStages rest (s.f t) + 1 else countStages rest t

/-- Message of the drop-columns stage. -/
def dropMsg (names : List String) (t : Table) : String :=
  "Dropped " ++ toString (t.headers.length - (dropColsF names t).headers.length)
    ++ " columns"

/-- Message of the fill-missing stage. -/
def fillMsg (m : FillMethod) : String :=
  match m with
  | FillMethod.mean => "Filled missing values using mean strategy"
  | FillMethod.median => "Filled missing values using median strategy"
  | FillMethod.forward_fill => "Filled missing values using forward fill strategy"
  | FillMethod.empty_string => "Filled missing values with empty strings"
  | FillMethod.drop => "Dropped rows with missing values"

/-- Message of the standardize stage. -/
def stdMsg (m : StdMethod) : String :=
  match m with
  | StdMethod.zscore => "Standardized numeric columns using z-score"
  | StdMethod.minmax => "Normalized numeric columns using min-max scaling"

/-- Message of the remove-duplicates stage. -/
def dedupMsg (t : Table) : String :=
  "Removed " ++ toString (t.rows.length - (dedupFirst t.rows).length)
    ++ " duplicate rows"

/-- Message of the remove-outliers stage. -/
def outlierMsg (t : Table) : String :=
  "Removed " ++ toString (t.rows.length - (removeOutliersF t).rows.length)
    ++ " outlier rows"

/-- Modelled from the spec: the six pipeline stages in their fixed order,
each with its precondition.  A stage is executed when it is enabled and
has an effect: disabled stages and stages whose transformation would
leave the table unchanged are skipped and log nothing (the spec's
no-op-omission rule); for the standardize stage the effect test is that
some numeric column is non-constant. -/
def stageList (zs : ZscoreFn) (o : CleaningOptions) : List StageSpec :=
  [ { pre := fun t => !o.columns_to_drop.isEmpty
        && decide (dropColsF o.columns_to_drop t ≠ t),
      f := dropColsF o.columns_to_drop,
      msg := dropMsg o.columns_to_drop },
    { pre := fun t =>
        match o.fill_missing with
        | some m => decide (fillMissingF m t ≠ t)
        | Option.none => false,
      f := fun t =>
        match o.fill_missing with
        | some m => fillMissingF m t
        | Option.none => t,
      msg := fun _ =>
        match o.fill_missing with
        | some m => fillMsg m
        | Option.none => "" },
    { pre := fun t => o.clean_strings && decide (cleanStringsF t ≠ t),
      f := cleanStringsF,
      msg := fun _ => "Cleaned string values" },
    { pre := fun t =>
        match o.standardize_data with
        | some m => stdPre m t
        | Option.none => false,
      f := fun t =>
        match o.standardize_data with
        | some m => standardizeF zs m t
        | Option.none => t,
      msg := fun _ =>
        match o.standardize_data with
        | some m => stdMsg m
        | Option.none => "" },
    { pre := fun t => o.remove_duplicates && decide (removeDuplicatesF t ≠ t),
      f := removeDuplicatesF,
      msg := dedupMsg },
    { pre := fun t => o.remove_outliers && decide (removeOutliersF t ≠ t),
      f := removeOutliersF,
      msg := outlierMsg } ]

/-- Modelled from the spec: the cleaning pipeline, new table plus the log
of operations performed, the six stages in their fixed order. -/
def clean (zs : ZscoreFn) (t : Table) (o : CleaningOptions) : Table × List String :=
  runStages (stageList zs o) t

/-- Modelled from the spec: number of stages of a cleaning run whose
precondition held. -/
def numExecuted (zs : ZscoreFn) (o : CleaningOptions) (t : Table) : Nat :=
  countStages (stageList zs o) t

/-- The CleaningOptions value with every option disabled. -/
def allDisabled : CleaningOptions :=
  { columns_to_drop := [], fill_missing := Option.none, clean_strings := false,
    standardize_data := Option.none, remove_duplicates := false,
    remove_outliers := false }

/-- Modelled from the spec: number of null cells of the table. -/
def missingCells (t : Table) : Nat :=
  (t.rows.map (fun r => r.countP (fun c => c.isNone))).sum

/-- Modelled from the spec: total number of cells, rows times columns. -/
def totalCells (t : Table) : Nat := t.rows.length * t.headers.length

/-- Round a rational to 2 decimal places (round half away from zero on
the underlying integer rounding). -/
def round2 (x : ℚ) : ℚ := ((round (100 * x) : ℤ) : ℚ) / 100

/-- Modelled from the spec: completeness score,
`100 * (1 - missingCells / totalCells)`, and 100 when there are no cells. -/
def completeness (t : Table) : ℚ :=
  if totalCells t = 0 then 100
  else 100 * (1 - (missingCells t : ℚ) / (totalCells t : ℚ))

/-- Modelled from the spec: uniqueness score,
`100 * (rows - total_duplicates) / rows`, and 100 when there are no rows. -/
def uniqueness (t : Table) : ℚ :=
  if t.rows.length = 0 then 100
  else 100 * ((t.rows.length : ℚ) - (totalDuplicates t : ℚ)) / (t.rows.length : ℚ)

/-- Modelled from the spec: the quality score record. -/
structure QualityScore where
  completeness : ℚ
  uniqueness : ℚ
  overall_score : ℚ
deriving DecidableEq, Repr

/-- Modelled from the spec: overall score, the equal-weighted average of
completeness and uniqueness, both components rounded to 2 decimal places
before combination and the average rounded to 2 decimal places. -/
def overallScore (t : Table) : ℚ :=
  round2 ((round2 (completeness t) + round2 (uniqueness t)) / 2)

/-- Modelled from the spec: the quality-score part of `analyze`, total
over any well-formed Table including empty ones. -/
def qualityScore (t : Table) : QualityScore :=
  { completeness := completeness t, uniqueness := uniqueness t,
    overall_score := overallScore t }

/-- Rough byte-size estimate of one cell. -/
def cellSize : Cell → Nat
  | Option.none => 1
  | some (Value.num _) => 8
  | some (Value.str s) => s.length
  | some (Value.boolV _) => 1

/-- Modelled from the spec: approximate memory estimate of a table. -/
def memoryEstimate (t : Table) : Nat :=
  (t.rows.map (fun r => (r.map cellSize).sum)).sum

/-- Modelled from the spec: a dataset-registry entry, the table plus the
root id of its lineage and its cleaning depth from that root. -/
structure RegEntry where
  table : Table
  root : String
  depth : Nat

/-- Modelled from the spec: the dataset registry, ids mapped to entries. -/
def Registry := List (String × RegEntry)

/-- Modelled from the spec: the id minted for a cleaning output, the
lineage root suffixed with the new cleaning depth. -/
def mintId (root : String) (depth : Nat) : String :=
  root ++ "_cleaned_" ++ toString (depth + 1)

/-- Modelled from the spec: register a freshly uploaded table; it is the
root of a new lineage at depth 0. -/
def regPut (id : String) (t : Table) (reg : Registry) : Registry :=
  (id, { table := t, root := id, depth := 0 }) :: reg

/-- Modelled from the spec: look an id up in the registry. -/
def regGet (id : String) (reg : Registry) : Option RegEntry :=
  List.lookup id reg

/-- Modelled from the spec: register a cleaning output derived from
`parentId`: the new id is minted from the parent's lineage root and the
cleaning depth, which increases by one. -/
def putDerived (parentId : String) (t : Table) (reg : Registry) :
    Option (String × Registry) :=
  (regGet parentId reg).map (fun e =>
    (mintId e.root e.depth,
     (mintId e.root e.depth,
      { table := t, root := e.root, depth := e.depth + 1 }) :: reg))

/-- Modelled from the spec: the CleaningResult returned by a successful
clean request. -/
structure CleaningResult where
  operations : List String
  stats_rows : Nat
  stats_columns : Nat
  stats_memory : Nat
  quality_score : QualityScore
  cleaned_table_id : String

/-- Modelled from the spec: the clean endpoint: resolve the id, run the
pipeline, register the output under a freshly minted id and answer with
the CleaningResult carrying that id. -/
def cleanEndpoint (zs : ZscoreFn) (reg : Registry) (fileId : String)
    (o : CleaningOptions) : Option (CleaningResult × Registry) :=
  (regGet fileId reg).bind (fun e =>
    let res := clean zs e.table o
    (putDerived fileId res.1 reg).map (fun p =>
      ({ operations := res.2,
         stats_rows := res.1.rows.length,
         stats_columns := res.1.headers.length,
         stats_memory := memoryEstimate res.1,
         quality_score := qualityScore res.1,
         cleaned_table_id := p.1 }, p.2)))

/-- State of the FileUpload component, from
src/frontend/src/components/FileUpload.js: the `isDragging`, `isLoading`
and `error` state variables. -/
structure UploadState where
  isDragging : Bool
  isLoading : Bool
  errorMsg : Option String
deriving DecidableEq, Repr

/-- Whether `s` ends with the given suffix, computed on the code-point
list (models the JavaScript `String.endsWith` used by the component). -/
def strEndsWith (s suffix : String) : Bool :=
  suffix.data.isSuffixOf s.data

/-- Embedded from src/frontend/src/components/FileUpload.js, `handleFile`:
a file whose name does not end in ".csv" sets the error message and
returns before any upload request; otherwise the upload runs (its outcome
is the environment's answer: `Option.none` on success, an error message
on failure) and `isLoading` is reset.  The second component records
whether `uploadFile` was invoked. -/
def handleFile (fileName : String) (uploadOutcome : Option String)
    (st : UploadState) : UploadState × Bool :=
  if strEndsWith fileName ".csv" = false then
    ({ st with errorMsg := some "Please upload a CSV file" }, false)
  else
    let st1 := { st with isLoading := true, errorMsg := Option.none }
    let st2 :=
      match uploadOutcome with
      | Option.none => st1
      | some m => { st1 with errorMsg := some m }
    ({ st2 with isLoading := false }, true)

/-- Concrete table of scenario A: `{id:[1,2,2,3], name:[a,b,b,c]}`. -/
def tableA : Table :=
  { headers := [{ name := "id", kind := Kind.numeric },
                { name := "name", kind := Kind.text }],
    rows := [[some (Value.num 1), some (Value.str "a")],
             [some (Value.num 2), some (Value.str "b")],
             [some (Value.num 2), some (Value.str "b")],
             [some (Value.num 3), some (Value.str "c")]] }

/-- Scenario A after deduplication: rows `{1,a}`, `{2,b}`, `{3,c}`. -/
def tableA' : Table :=
  { headers := tableA.headers,
    rows := [[some (Value.num 1), some (Value.str "a")],
             [some (Value.num 2), some (Value.str "b")],
             [some (Value.num 3), some (Value.str "c")]] }

/-- Options of scenario A: only remove_duplicates enabled. -/
def optsDedupOnly : CleaningOptions :=
  { allDisabled with remove_duplicates := true }

/-- Concrete empty table of scenario C: 0 rows, 2 columns. -/
def tableC : Table :=
  { headers := [{ name := "a", kind := Kind.numeric },
                { name := "b", kind := Kind.text }],
    rows := [] }

/-- A trivial z-score transform used to instantiate the pipeline at
concrete inputs (no claim constrains the transform's numeric output). -/
def zsId : ZscoreFn := fun _ _ x => x

/-- Concrete one-column numeric table for min-max checks. -/
def tableMM : Table :=
  { headers := [{ name := "v", kind := Kind.numeric }],
    rows := [[some (Value.num 10)], [some (Value.num 20)], [some (Value.num 30)]] }

/-- Concrete one-column numeric table with an outlier: values 1,2,3,4,100. -/
def tableOut : Table :=
  { headers := [{ name := "v", kind := Kind.numeric }],
    rows := [[some (Value.num 1)], [some (Value.num 2)], [some (Value.num 3)],
             [some (Value.num 4)], [some (Value.num 100)]] }

/-- Initial state of the FileUpload component. -/
def uploadInit : UploadState :=
  { isDragging := false, isLoading := false, errorMsg := Option.none }

/-- The messages logged along a run of the stages, in execution order. -/
def executedMsgs : List StageSpec → Table → List String
  | [], _ => []
  | s :: rest, t =>
    if s.pre t then s.msg t :: executedMsgs rest (s.f t) else executedMsgs rest t

section Lemmas

attribute [local semireducible] Rat.mul Rat.add Rat.sub Rat.inv Rat.ofScientific

theorem dedupFirstAux_sublist {α : Type} [DecidableEq α] (l : List α) :
    ∀ seen, (dedupFirstAux seen l).Sublist l := by
  induction l with
  | nil => intro seen; exact List.Sublist.refl []
  | cons x xs ih =>
    intro seen
    unfold dedupFirstAux
    by_cases h : x ∈ seen
    · rw [if_pos h]; exact (ih seen).cons x
    · rw [if_neg h]; exact (ih (x :: seen)).cons₂ x

theorem dedupFirstAux_mem {α : Type} [DecidableEq α] (l : List α) :
    ∀ seen x, x ∈ l → x ∉ seen → x ∈ dedupFirstAux seen l := by
  induction l with
  | nil => intro seen x hx; exact absurd hx (List.not_mem_nil x)
  | cons y ys ih =>
    intro seen x hx hseen
    unfold dedupFirstAux
    by_cases h : y ∈ seen
    · rw [if_pos h]
      rcases List.mem_cons.mp hx with rfl | hx2
      · exact absurd h hseen
      · exact ih seen x hx2 hseen
    · rw [if_neg h]
      rcases List.mem_cons.mp hx with rfl | hx2
      · exact List.mem_cons_self x _
      · by_cases hxy : x = y
        · subst hxy; exact List.mem_cons_self x _
        · exact List.mem_cons_of_mem y
            (ih (y :: seen) x hx2 (by simp [hxy, hseen]))

theorem dedupFirstAux_nodup_disjoint {α : Type} [DecidableEq α] (l : List α) :
    ∀ seen, (dedupFirstAux seen l).Nodup ∧ ∀ x ∈ dedupFirstAux seen l, x ∉ seen := by
  induction l with
  | nil => intro seen; simp [dedupFirstAux]
  | cons x xs ih =>
    intro seen
    unfold dedupFirstAux
    by_cases h : x ∈ seen
    · rw [if_pos h]; exact ih seen
    · rw [if_neg h]
      obtain ⟨h1, h2⟩ := ih (x :: seen)
      refine ⟨List.nodup_cons.mpr ⟨fun hx => ?_, h1⟩, ?_⟩
      · exact (h2 x hx) (List.mem_cons_self x seen)
      · intro y hy
        rcases List.mem_cons.mp hy with rfl | hy2
        · exact h
        · intro hys
          exact (h2 y hy2) (List.mem_cons_of_mem x hys)

theorem dedupFirstAux_eq_self {α : Type} [DecidableEq α] (l : List α) :
    ∀ seen, l.Nodup → (∀ x ∈ l, x ∉ seen) → dedupFirstAux seen l = l := by
  induction l with
  | nil => intro seen _ _; rfl
  | cons x xs ih =>
    intro seen hnd hdis
    unfold dedupFirstAux
    rw [if_neg (hdis x (List.mem_cons_self x xs))]
    obtain ⟨hx, hxs⟩ := List.nodup_cons.mp hnd
    rw [ih (x :: seen) hxs]
    intro y hy
    intro hmem
    rcases List.mem_cons.mp hmem with rfl | hy2
    · exact hx hy
    · exact (hdis y (List.mem_cons_of_mem x hy)) hy2

theorem dedupFirst_sublist {α : Type} [DecidableEq α] (l : List α) :
    (dedupFirst l).Sublist l :=
  dedupFirstAux_sublist l []

theorem dedupFirst_nodup {α : Type} [DecidableEq α] (l : List α) :
    (dedupFirst l).Nodup :=
  (dedupFirstAux_nodup_disjoint l []).1

theorem dedupFirst_mem {α : Type} [DecidableEq α] (l : List α) (x : α) (h : x ∈ l) :
    x ∈ dedupFirst l :=
  dedupFirstAux_mem l [] x h (List.not_mem_nil x)

theorem dedupFirst_idem {α : Type} [DecidableEq α] (l : List α) :
    dedupFirst (dedupFirst l) = dedupFirst l :=
  dedupFirstAux_eq_self (dedupFirst l) [] (dedupFirst_nodup l)
    (fun x _ => List.not_mem_nil x)

theorem dedupFirst_length_le {α : Type} [DecidableEq α] (l : List α) :
    (dedupFirst l).length ≤ l.length :=
  (dedupFirst_sublist l).length_le

theorem runStages_snd_length (L : List StageSpec) :
    ∀ t, (runStages L t).2.length = countStages L t := by
  induction L with
  | nil => intro t; rfl
  | cons s rest ih =>
    intro t
    unfold runStages countStages
    by_cases h : s.pre t = true
    · rw [if_pos h, if_pos h]
      simp [ih (s.f t)]
    · rw [if_neg h, if_neg h]
      exact ih t

theorem runStages_snd_eq (L : List StageSpec) :
    ∀ t, (runStages L t).2 = executedMsgs L t := by
  induction L with
  | nil => intro t; rfl
  | cons s rest ih =>
    intro t
    unfold runStages executedMsgs
    by_cases h : s.pre t = true
    · rw [if_pos h, if_pos h]
      simp [ih (s.f t)]
    · rw [if_neg h, if_neg h]
      exact ih t

theorem getD_zipWith {α β γ : Type} (g : α → β → γ) (dc : γ) (da : α) (db : β) :
    ∀ (ps : List α) (r : List β) (j : Nat), j < ps.length → j < r.length →
      (List.zipWith g ps r).getD j dc = g (ps.getD j da) (r.getD j db) := by
  intro ps
  induction ps with
  | nil => intro r j h1; simp at h1
  | cons p ps ih =>
    intro r j h1 h2
    cases r with
    | nil => simp at h2
    | cons c r =>
      cases j with
      | zero => rfl
      | succ j =>
        simp only [List.zipWith_cons_cons, List.getD_cons_succ]
        exact ih r j (Nat.lt_of_succ_lt_succ h1) (Nat.lt_of_succ_lt_succ h2)

theorem getD_map_range {γ : Type} (f : Nat → γ) (d : γ) (n j : Nat) (h : j < n) :
    ((List.range n).map f).getD j d = f j := by
  rw [List.getD_eq_getElem?_getD, List.getElem?_map, List.getElem?_range h]
  rfl

theorem colCells_mapCols {P : Type} (ps : List P) (g : P → Cell → Cell) (t : Table)
    (j : Nat) (d : P) (hps : ps.length = t.headers.length)
    (hrows : ∀ r ∈ t.rows, r.length = t.headers.length) (hj : j < t.headers.length) :
    colCells (mapCols ps g t) j = (colCells t j).map (fun c => g (ps.getD j d) c) := by
  unfold colCells mapCols
  simp only [List.map_map]
  apply List.map_congr_left
  intro r hr
  have h2 : j < r.length := by rw [hrows r hr]; exact hj
  have h1 : j < ps.length := by rw [hps]; exact hj
  exact getD_zipWith g Option.none d Option.none ps r j h1 h2

theorem foldl_min_le_init : ∀ (xs : List ℚ) (a : ℚ), xs.foldl min a ≤ a := by
  intro xs
  induction xs with
  | nil => intro a; exact le_refl a
  | cons z zs ih =>
    intro a
    exact le_trans (ih (min a z)) (min_le_left a z)

theorem foldl_min_le_mem : ∀ (xs : List ℚ) (a y : ℚ), y ∈ xs → xs.foldl min a ≤ y := by
  intro xs
  induction xs with
  | nil => intro a y hy; exact absurd hy (List.not_mem_nil y)
  | cons z zs ih =>
    intro a y hy
    rcases List.mem_cons.mp hy with rfl | hy2
    · exact le_trans (foldl_min_le_init zs (min a y)) (min_le_right a y)
    · exact ih (min a z) y hy2

theorem init_le_foldl_max : ∀ (xs : List ℚ) (a : ℚ), a ≤ xs.foldl max a := by
  intro xs
  induction xs with
  | nil => intro a; exact le_refl a
  | cons z zs ih =>
    intro a
    exact le_trans (le_max_left a z) (ih (max a z))

theorem mem_le_foldl_max : ∀ (xs : List ℚ) (a y : ℚ), y ∈ xs → y ≤ xs.foldl max a := by
  intro xs
  induction xs with
  | nil => intro a y hy; exact absurd hy (List.not_mem_nil y)
  | cons z zs ih =>
    intro a y hy
    rcases List.mem_cons.mp hy with rfl | hy2
    · exact le_trans (le_max_right a y) (init_le_foldl_max zs (max a y))
    · exact ih (max a z) y hy2

theorem listMin_le (l : List ℚ) (y : ℚ) (h : y ∈ l) : listMin l ≤ y := by
  cases l with
  | nil => exact absurd h (List.not_mem_nil y)
  | cons x xs =>
    unfold listMin
    rcases List.mem_cons.mp h with rfl | h2
    · exact foldl_min_le_init xs y
    · exact foldl_min_le_mem xs x y h2

theorem le_listMax (l : List ℚ) (y : ℚ) (h : y ∈ l) : y ≤ listMax l := by
  cases l with
  | nil => exact absurd h (List.not_mem_nil y)
  | cons x xs =>
    unfold listMax
    rcases List.mem_cons.mp h with rfl | h2
    · exact init_le_foldl_max xs y
    · exact mem_le_foldl_max xs x y h2

theorem round2_bounds (x : ℚ) (h0 : 0 ≤ x) (h1 : x ≤ 100) :
    0 ≤ round2 x ∧ round2 x ≤ 100 := by
  have hlo : (0 : ℤ) ≤ round (100 * x) := by
    rw [round_eq]
    apply Int.floor_nonneg.mpr
    linarith
  have hhi : round (100 * x) ≤ 10000 := by
    rw [round_eq]
    have : ⌊100 * x + 1 / 2⌋ < 10001 := by
      apply Int.floor_lt.mpr
      push_cast
      linarith
    omega
  unfold round2
  constructor
  · apply div_nonneg _ (by norm_num)
    exact_mod_cast hlo
  · rw [div_le_iff₀ (by norm_num)]
    calc ((round (100 * x) : ℤ) : ℚ) ≤ ((10000 : ℤ) : ℚ) := by exact_mod_cast hhi
      _ = 100 * 100 := by norm_num

theorem missingCells_le_totalCells (t : Table)
    (hrows : ∀ r ∈ t.rows, r.length = t.headers.length) :
    missingCells t ≤ totalCells t := by
  unfold missingCells totalCells
  calc (t.rows.map (fun r => r.countP (fun c => c.isNone))).sum
      ≤ (t.rows.map (fun r => r.length)).sum := by
        apply List.sum_le_sum
        intro r _
        exact List.countP_le_length _
    _ = (t.rows.map (fun _ => t.headers.length)).sum := by
        apply congrArg
        exact List.map_congr_left hrows
    _ = t.rows.length * t.headers.length := by
        rw [List.map_const']
        simp [List.sum_replicate, smul_eq_mul]

theorem minmaxCell_none (c : Cell) : minmaxCell Option.none c = c := by
  cases c with
  | none => rfl
  | some v => cases v <;> rfl

theorem colCells_standardize_minmax (zs : ZscoreFn) (t : Table)
    (hrows : ∀ r ∈ t.rows, r.length = t.headers.length) (j : Nat)
    (hj : j < t.headers.length) :
    colCells (standardizeF zs StdMethod.minmax t) j
      = (colCells t j).map (fun c => minmaxCell (minmaxParam t j) c) := by
  have hps : ((List.range t.headers.length).map (minmaxParam t)).length
      = t.headers.length := by simp
  have h := colCells_mapCols ((List.range t.headers.length).map (minmaxParam t))
    minmaxCell t j Option.none hps hrows hj
  unfold standardizeF
  rw [h, getD_map_range (minmaxParam t) Option.none t.headers.length j hj]

theorem mem_colVals (t : Table) (j : Nat) (x : ℚ)
    (h : some (Value.num x) ∈ colCells t j) : x ∈ colVals t j := by
  unfold colVals
  rw [List.mem_filterMap]
  exact ⟨some (Value.num x), h, rfl⟩

end Lemmas

section Claims

attribute [local semireducible] Rat.mul Rat.add Rat.sub Rat.inv Rat.ofScientific

/-- Claim C1: for every well-formed Table and every CleaningOptions value,
clean executes the six stages in the fixed order drop-columns,
fill-missing, clean-strings, standardize, remove-duplicates,
remove-outliers (the order of stageList); every stage whose precondition
holds appends exactly one descriptive string to the operations list in
execution order, stages that are disabled or whose precondition fails
contribute nothing, and the length of operations equals the number of
stages actually executed. -/
theorem c1_pipeline_operations (zs : ZscoreFn) (o : CleaningOptions) (t : Table)
    (_hw : Wellformed t) :
    (clean zs t o).2 = executedMsgs (stageList zs o) t ∧
    (clean zs t o).2.length = numExecuted zs o t :=
  ⟨runStages_snd_eq (stageList zs o) t, runStages_snd_length (stageList zs o) t⟩

/-- Witness for C1 at a concrete table and options. -/
theorem c1_pipeline_operations_witness :
    (clean zsId tableA optsDedupOnly).2 = executedMsgs (stageList zsId optsDedupOnly) tableA ∧
    (clean zsId tableA optsDedupOnly).2.length = numExecuted zsId optsDedupOnly tableA :=
  c1_pipeline_operations zsId optsDedupOnly tableA (by decide)

/-- Claim C4: the remove-duplicates stage keeps exactly the first
occurrence of each distinct row in original row order (its output is an
order-preserving, duplicate-free selection of the rows containing every
distinct row, rows comparing equal componentwise with nulls equal), and
on scenario A the pipeline with only remove_duplicates enabled turns
`{id:[1,2,2,3], name:[a,b,b,c]}` into the three rows `{1,a},{2,b},{3,c}`
with operations exactly `["Removed 1 duplicate rows"]`. -/
theorem c4_remove_duplicates (t : Table) (_hw : Wellformed t) :
    (removeDuplicatesF t).headers = t.headers ∧
    (removeDuplicatesF t).rows.Sublist t.rows ∧
    (removeDuplicatesF t).rows.Nodup ∧
    (∀ r, r ∈ (removeDuplicatesF t).rows ↔ r ∈ t.rows) ∧
    (∀ zs : ZscoreFn,
      clean zs tableA optsDedupOnly = (tableA', ["Removed 1 duplicate rows"])) := by
  refine ⟨rfl, dedupFirst_sublist t.rows, dedupFirst_nodup t.rows, ?_, ?_⟩
  · intro r
    constructor
    · intro h
      exact (dedupFirst_sublist t.rows).mem h
    · intro h
      exact dedupFirst_mem t.rows r h
  · intro zs
    rfl

/-- Witness for C4 at the concrete scenario-A table. -/
theorem c4_remove_duplicates_witness :
    (removeDuplicatesF tableA).rows.Nodup :=
  (c4_remove_duplicates tableA (by decide)).2.2.1

/-- Claim C5: running clean with all options disabled (empty
columns_to_drop, no fill strategy, clean_strings off, no standardize
method, remove_duplicates off, remove_outliers off) returns the input
Table unchanged together with an empty operations list, for every
well-formed Table; the pipeline is total, so it never errors. -/
theorem c5_all_disabled_identity (zs : ZscoreFn) (t : Table) (_hw : Wellformed t) :
    clean zs t allDisabled = (t, []) := rfl

/-- Witness for C5 at a concrete table. -/
theorem c5_all_disabled_identity_witness :
    clean zsId tableA allDisabled = (tableA, []) :=
  c5_all_disabled_identity zsId tableA (by decide)

/-- Claim C9: applying the remove-duplicates stage twice in succession
yields the same Table as applying it once; the stage is idempotent (for
every Table, well-formed or not). -/
theorem c9_dedup_idempotent (t : Table) :
    removeDuplicatesF (removeDuplicatesF t) = removeDuplicatesF t := by
  unfold removeDuplicatesF
  simp [dedupFirst_idem]

/-- Claim C10: the upload component's handleFile invokes uploadFile
exactly for files whose name ends in ".csv"; for any other file it sets
the error message to "Please upload a CSV file" and returns without
issuing an upload request, leaving the rest of the state unchanged.
Embedded from src/frontend/src/components/FileUpload.js lines 36-53. -/
theorem c10_upload_guard (fileName : String) (outcome : Option String)
    (st : UploadState) :
    ((handleFile fileName outcome st).2 = true ↔ strEndsWith fileName ".csv" = true) ∧
    (strEndsWith fileName ".csv" = false →
      handleFile fileName outcome st
        = ({ st with errorMsg := some "Please upload a CSV file" }, false)) := by
  unfold handleFile
  cases h : strEndsWith fileName ".csv" with
  | false => simp
  | true => simp

/-- Witness for C10: a non-CSV file name is rejected without an upload. -/
theorem c10_upload_guard_witness :
    handleFile "data.txt" Option.none uploadInit
      = ({ uploadInit with errorMsg := some "Please upload a CSV file" }, false) :=
  (c10_upload_guard "data.txt" Option.none uploadInit).2 (by decide)

/-- Claim C2: analyze is total over well-formed Tables (the score is a
total function), completeness is `100 * (1 - missingCells / totalCells)`
with `totalCells = rows * columns` and 100 when there are no cells,
uniqueness is `100 * (rows - total_duplicates) / rows` and 100 when there
are no rows, the overall score is the 2-decimal rounding of the average
of the two components, themselves rounded to 2 decimal places before
combination, and an empty Table with 0 rows and 2 columns scores 100 on
all three. -/
theorem c2_quality_formulas (t : Table) (_hw : Wellformed t) :
    (totalCells t = 0 → (qualityScore t).completeness = 100) ∧
    (totalCells t ≠ 0 →
      (qualityScore t).completeness
        = 100 * (1 - (missingCells t : ℚ) / (totalCells t : ℚ))) ∧
    (t.rows.length = 0 → (qualityScore t).uniqueness = 100) ∧
    (t.rows.length ≠ 0 →
      (qualityScore t).uniqueness
        = 100 * ((t.rows.length : ℚ) - (totalDuplicates t : ℚ)) / (t.rows.length : ℚ)) ∧
    (qualityScore t).overall_score
      = round2 ((round2 ((qualityScore t).completeness)
          + round2 ((qualityScore t).uniqueness)) / 2) ∧
    qualityScore tableC
      = { completeness := 100, uniqueness := 100, overall_score := 100 } := by
  refine ⟨?_, ?_, ?_, ?_, rfl, by decide⟩
  · intro h
    simp [qualityScore, completeness, h]
  · intro h
    simp [qualityScore, completeness, h]
  · intro h
    simp [qualityScore, uniqueness, h]
  · intro h
    simp [qualityScore, uniqueness, h]

/-- Witness for C2: the scenario-C empty table scores 100 overall. -/
theorem c2_quality_formulas_witness : (qualityScore tableC).overall_score = 100 := by
  have h := (c2_quality_formulas tableC (by decide)).2.2.2.2.2
  rw [h]

/-- Claim C8: completeness, uniqueness and overall_score all lie in the
closed interval from 0 to 100, for every well-formed Table. -/
theorem c8_score_bounds (t : Table) (hw : Wellformed t) :
    (0 ≤ (qualityScore t).completeness ∧ (qualityScore t).completeness ≤ 100) ∧
    (0 ≤ (qualityScore t).uniqueness ∧ (qualityScore t).uniqueness ≤ 100) ∧
    (0 ≤ (qualityScore t).overall_score ∧ (qualityScore t).overall_score ≤ 100) := by
  have hc : 0 ≤ completeness t ∧ completeness t ≤ 100 := by
    unfold completeness
    by_cases h : totalCells t = 0
    · rw [if_pos h]; norm_num
    · rw [if_neg h]
      have hmt : missingCells t ≤ totalCells t := missingCells_le_totalCells t hw.1
      have htpos : (0 : ℚ) < (totalCells t : ℚ) := by
        exact_mod_cast Nat.pos_of_ne_zero h
      have h01 : (0 : ℚ) ≤ (missingCells t : ℚ) / (totalCells t : ℚ) := by
        apply div_nonneg _ (le_of_lt htpos)
        exact_mod_cast Nat.zero_le _
      have h02 : (missingCells t : ℚ) / (totalCells t : ℚ) ≤ 1 := by
        rw [div_le_one htpos]
        exact_mod_cast hmt
      constructor
      · nlinarith
      · nlinarith
  have hu : 0 ≤ uniqueness t ∧ uniqueness t ≤ 100 := by
    unfold uniqueness
    by_cases h : t.rows.length = 0
    · rw [if_pos h]; norm_num
    · rw [if_neg h]
      have hd : (dedupFirst t.rows).length ≤ t.rows.length := dedupFirst_length_le t.rows
      have hdup : totalDuplicates t ≤ t.rows.length := Nat.sub_le _ _
      have hkey : (t.rows.length : ℚ) - (totalDuplicates t : ℚ)
          = ((dedupFirst t.rows).length : ℚ) := by
        unfold totalDuplicates
        push_cast [Nat.cast_sub hd]
        ring
      have hpos : (0 : ℚ) < (t.rows.length : ℚ) := by
        exact_mod_cast Nat.pos_of_ne_zero h
      rw [hkey]
      constructor
      · positivity
      · have hle : ((dedupFirst t.rows).length : ℚ) / (t.rows.length : ℚ) ≤ 1 := by
          rw [div_le_one hpos]
          exact_mod_cast hd
        have hge : (0 : ℚ) ≤ ((dedupFirst t.rows).length : ℚ) / (t.rows.length : ℚ) := by
          positivity
        rw [mul_div_assoc]
        nlinarith
  have hcr := round2_bounds (completeness t) hc.1 hc.2
  have hur := round2_bounds (uniqueness t) hu.1 hu.2
  have havg : 0 ≤ (round2 (completeness t) + round2 (uniqueness t)) / 2 ∧
      (round2 (completeness t) + round2 (uniqueness t)) / 2 ≤ 100 := by
    constructor
    · linarith [hcr.1, hur.1]
    · linarith [hcr.2, hur.2]
  have hov := round2_bounds _ havg.1 havg.2
  exact ⟨hc, hu, hov⟩

/-- Witness for C8 at the concrete scenario-A table. -/
theorem c8_score_bounds_witness :
    0 ≤ (qualityScore tableA).overall_score ∧ (qualityScore tableA).overall_score ≤ 100 :=
  (c8_score_bounds tableA (by decide)).2.2

/-- Claim C3: in the remove-outliers stage each numeric column with at
least 4 non-null values (a tested column) gets bounds
`[Q1 - 1.5 * IQR, Q3 + 1.5 * IQR]` from linear-interpolation quartiles of
its non-null values (the definitions of loBound and hiBound); a row
survives iff every tested column's value for it lies within that column's
own bounds — it is removed iff some tested value falls outside — columns
with fewer than 4 non-null values are excluded from the test (testedCol),
and after the stage no remaining value of a tested column lies outside
the bounds computed for it before the stage. -/
theorem c3_outlier_stage (t : Table) (_hw : Wellformed t) :
    (removeOutliersF t).headers = t.headers ∧
    (∀ r, r ∈ (removeOutliersF t).rows ↔ r ∈ t.rows ∧ rowInBounds t r = true) ∧
    (∀ j, j < t.headers.length → testedCol t j = true →
      ∀ c ∈ colCells (removeOutliersF t) j, ∀ x, c = some (Value.num x) →
        loBound t j ≤ x ∧ x ≤ hiBound t j) := by
  refine ⟨rfl, ?_, ?_⟩
  · intro r
    unfold removeOutliersF
    simp [List.mem_filter]
  · intro j hj htest c hc x hcx
    subst hcx
    unfold removeOutliersF colCells at hc
    simp only [List.mem_map] at hc
    obtain ⟨r, hr, hrc⟩ := hc
    rw [List.mem_filter] at hr
    have hall := hr.2
    unfold rowInBounds at hall
    rw [List.all_eq_true] at hall
    have hjr := hall j (List.mem_range.mpr hj)
    rw [htest] at hjr
    simp only [Bool.not_true, Bool.false_or] at hjr
    rw [hrc] at hjr
    unfold cellInBounds at hjr
    simp only [Bool.and_eq_true, decide_eq_true_eq] at hjr
    exact hjr

/-- Witness for C3: in the concrete table with values 1,2,3,4,100 the
outlier row 100 is removed. -/
theorem c3_outlier_stage_witness :
    ¬ ([some (Value.num 100)] ∈ (removeOutliersF tableOut).rows) := by
  intro hmem
  have h := ((c3_outlier_stage tableOut (by decide)).2.1 [some (Value.num 100)]).mp hmem
  have hb : rowInBounds tableOut [some (Value.num 100)] = true := h.2
  exact absurd hb (by decide)

/-- Claim C6: for every numeric column in the standardize stage with
method minmax, if the column's max exceeds its min then every
post-transform non-null value lies in the interval from 0 to 1 and the
positions originally holding the min and the max map to exactly 0 and 1;
if max equals min all values are left unchanged; and non-numeric columns
are never modified by this stage. -/
theorem c6_minmax (zs : ZscoreFn) (t : Table) (hw : Wellformed t) (j : Nat)
    (hj : j < t.headers.length) :
    (kindAt t j = some Kind.numeric →
      listMin (colVals t j) < listMax (colVals t j) →
      (∀ c ∈ colCells (standardizeF zs StdMethod.minmax t) j, ∀ x,
        c = some (Value.num x) → 0 ≤ x ∧ x ≤ 1) ∧
      (∀ i c, (colCells t j).get? i = some c →
        (c = some (Value.num (listMin (colVals t j))) →
          (colCells (standardizeF zs StdMethod.minmax t) j).get? i
            = some (some (Value.num 0))) ∧
        (c = some (Value.num (listMax (colVals t j))) →
          (colCells (standardizeF zs StdMethod.minmax t) j).get? i
            = some (some (Value.num 1))))) ∧
    (listMax (colVals t j) = listMin (colVals t j) →
      colCells (standardizeF zs StdMethod.minmax t) j = colCells t j) ∧
    (kindAt t j ≠ some Kind.numeric →
      colCells (standardizeF zs StdMethod.minmax t) j = colCells t j) := by
  have hcol := colCells_standardize_minmax zs t hw.1 j hj
  refine ⟨?_, ?_, ?_⟩
  · intro hk hlt
    have hparam : minmaxParam t j
        = some (listMin (colVals t j), listMax (colVals t j)) := by
      unfold minmaxParam
      rw [if_pos ⟨hk, hlt⟩]
    have hd : 0 < listMax (colVals t j) - listMin (colVals t j) := sub_pos.mpr hlt
    constructor
    · intro c hc x hcx
      subst hcx
      rw [hcol, hparam] at hc
      obtain ⟨c0, hc0, hgc⟩ := List.mem_map.mp hc
      cases c0 with
      | none => exact absurd hgc (by simp [minmaxCell])
      | some v =>
        cases v with
        | num x0 =>
          have hx0 : x ∈ colVals t j →
              listMin (colVals t j) ≤ x ∧ x ≤ listMax (colVals t j) :=
            fun hm => ⟨listMin_le _ x hm, le_listMax _ x hm⟩
          have hmem := mem_colVals t j x0 hc0
          have h1 : listMin (colVals t j) ≤ x0 := listMin_le _ x0 hmem
          have h2 : x0 ≤ listMax (colVals t j) := le_listMax _ x0 hmem
          unfold minmaxCell at hgc
          have hx : x = (x0 - listMin (colVals t j))
              / (listMax (colVals t j) - listMin (colVals t j)) := by
            have := Option.some.inj hgc
            exact (Value.num.inj this).symm
          subst hx
          constructor
          · exact div_nonneg (sub_nonneg.mpr h1) hd.le
          · rw [div_le_one hd]
            exact sub_le_sub_right h2 _
        | str s => exact absurd hgc (by simp [minmaxCell])
        | boolV b => exact absurd hgc (by simp [minmaxCell])
    · intro i c hic
      constructor
      · intro hceq
        subst hceq
        rw [hcol, hparam, List.get?_map, hic]
        have : (listMin (colVals t j) - listMin (colVals t j))
            / (listMax (colVals t j) - listMin (colVals t j)) = 0 := by
          rw [sub_self, zero_div]
        simp [minmaxCell, this]
      · intro hceq
        subst hceq
        rw [hcol, hparam, List.get?_map, hic]
        have : (listMax (colVals t j) - listMin (colVals t j))
            / (listMax (colVals t j) - listMin (colVals t j)) = 1 :=
          div_self (ne_of_gt hd)
        simp [minmaxCell, this]
  · intro heq
    have hparam : minmaxParam t j = Option.none := by
      unfold minmaxParam
      rw [if_neg]
      intro hcon
      rw [heq] at hcon
      exact lt_irrefl _ hcon.2
    rw [hcol, hparam]
    simp [minmaxCell_none]
  · intro hk
    have hparam : minmaxParam t j = Option.none := by
      unfold minmaxParam
      rw [if_neg]
      intro hcon
      exact hk hcon.1
    rw [hcol, hparam]
    simp [minmaxCell_none]

/-- Witness for C6: in the concrete table with values 10,20,30 the
position of the minimum is scaled to exactly 0. -/
theorem c6_minmax_witness :
    (colCells (standardizeF zsId StdMethod.minmax tableMM) 0).get? 0
      = some (some (Value.num 0)) := by
  have h := (c6_minmax zsId tableMM (by decide) 0 (by decide)).1 (by decide) (by decide)
  exact (h.2 0 (some (Value.num 10)) (by decide)).1 (by decide)

/-- Claim C7: for every registered Table with id parentId, putDerived
mints the new id deterministically from the parent entry's lineage root
and its per-lineage counter (the cleaning depth from the original root);
every successful clean response carries this new dataset id in
cleaned_table_id, usable for chaining; and concretely the first cleaning
of "abc" yields "abc_cleaned_1" while a second cleaning applied to
"abc_cleaned_1" yields "abc_cleaned_2". -/
theorem c7_registry_lineage (t : Table) (reg : Registry) (parent : String)
    (e : RegEntry) (h : regGet parent reg = some e) :
    (putDerived parent t reg).map Prod.fst = some (mintId e.root e.depth) ∧
    (∀ zs o res reg2, cleanEndpoint zs reg parent o = some (res, reg2) →
      res.cleaned_table_id = mintId e.root e.depth) ∧
    (∀ (zs : ZscoreFn) (o o2 : CleaningOptions) (t0 : Table),
      (cleanEndpoint zs (regPut "abc" t0 []) "abc" o).map
          (fun p => p.1.cleaned_table_id) = some "abc_cleaned_1" ∧
      ((cleanEndpoint zs (regPut "abc" t0 []) "abc" o).bind
          (fun p => cleanEndpoint zs p.2 "abc_cleaned_1" o2)).map
          (fun p => p.1.cleaned_table_id) = some "abc_cleaned_2") := by
  refine ⟨?_, ?_, ?_⟩
  · unfold putDerived
    rw [h]
    rfl
  · intro zs o res reg2 hce
    unfold cleanEndpoint putDerived at hce
    rw [h] at hce
    simp only [Option.some_bind, Option.map_some'] at hce
    have h1 := (Prod.mk.injEq _ _ _ _).mp (Option.some.inj hce)
    rw [← h1.1]
  · intro zs o o2 t0
    constructor
    · unfold cleanEndpoint putDerived
      rw [show regGet "abc" (regPut "abc" t0 [])
        = some { table := t0, root := "abc", depth := 0 } from rfl]
      simp only [Option.some_bind, Option.map_some']
      rfl
    · unfold cleanEndpoint putDerived
      rw [show regGet "abc" (regPut "abc" t0 [])
        = some { table := t0, root := "abc", depth := 0 } from rfl]
      simp only [Option.some_bind, Option.map_some']
      rw [show mintId "abc" 0 = "abc_cleaned_1" from rfl]
      rw [show regGet "abc_cleaned_1"
          (("abc_cleaned_1",
            { table := (clean zs t0 o).1, root := "abc", depth := 1 })
            :: regPut "abc" t0 [])
        = some { table := (clean zs t0 o).1, root := "abc", depth := 1 } from rfl]
      simp only [Option.some_bind, Option.map_some']
      rfl

/-- Witness for C7 at a concrete registry. -/
theorem c7_registry_lineage_witness :
    (putDerived "abc" tableA (regPut "abc" tableC [])).map Prod.fst
      = some "abc_cleaned_1" :=
  (c7_registry_lineage tableA (regPut "abc" tableC []) "abc"
    { table := tableC, root := "abc", depth := 0 } rfl).1

end Claims

end CsvSpec
